import Mathlib

/-!
Verification of `build_docs.py` (docsbuild-scripts).

This file contains a shallow embedding, in Lean 4, of the pure/control-flow
core of `build_docs.py`:

* `locate_nearest_version` (binary search over `major.minor` version strings),
* `pep_545_tag_to_gettext_tag` (language-tag transform),
* `translation_branch` (remote-branch filtering + nearest version),
* `changed_files` (recursive directory comparison via `filecmp.dircmp`),
* `shell_out` (external command runner that swallows nonzero exits),
* `git_clone` (optimistic update with fresh-clone fallback),
* the per-unit build/publish step and the orchestrating `main` loop,
* the cache-invalidation path list of `copy_build_to_webroot`.

Python strings are modelled as Lean `String`; where `build_docs.py` uses
`str.split` / `str.upper` / `int(...)` we use structurally recursive
character-list helpers (`splitStr`, `strUpper`, `parseNatStr`) whose
behaviour agrees with the Python functions on the inputs that occur
(ASCII text; numeric fields made of decimal digits).  Python exceptions are
modelled with `Except`: a raised exception is an `Except.error`, and a
`try`/`except` is a `match` on the body's result.
-/

/-- Splits a list of characters at every occurrence of `sep`.
Mirrors Python `str.split(sep)` for a one-character separator:
`splitChars '-' "".toList = [[]]`, and separators at the ends produce
empty components. -/
def splitChars (sep : Char) : List Char → List (List Char)
  | [] => [[]]
  | c :: rest =>
    match splitChars sep rest with
    | [] => [[c]]
    | p :: ps => if c = sep then [] :: p :: ps else (c :: p) :: ps

/-- String version of `splitChars`; model of Python `s.split(sep)` for a
one-character separator `sep`. -/
def splitStr (sep : Char) (s : String) : List String :=
  (splitChars sep s.toList).map String.mk

/-- Model of Python `str.upper` on ASCII strings (the region subtags that
occur in PEP 545 language tags are ASCII). -/
def strUpper (s : String) : String := String.mk (s.toList.map Char.toUpper)

/-- Decimal value of a digit string; model of Python `int(...)` on the
(all-digit) version components that `build_docs.py` parses. -/
def parseDigits (cs : List Char) : Nat :=
  cs.foldl (fun acc c => acc * 10 + (c.toNat - 48)) 0

/-- String version of `parseDigits`. -/
def parseNatStr (s : String) : Nat := parseDigits s.toList

/-- Model of Python `sep.join(parts)`. -/
def joinSep (sep : String) : List String → String
  | [] => ""
  | [x] => x
  | x :: rest => x ++ sep ++ joinSep sep rest

/-- Relative path built from nonempty components, joined by `/` — the form
of the strings `changed_files` produces (`str(base / file)`). -/
def joinPath : List String → String
  | [] => ""
  | [n] => n
  | n :: rest => n ++ "/" ++ joinPath rest

/-- Python tuple comparison `<` specialised to tuples of ints, as used on
the version tuples of `locate_nearest_version`: lexicographic, with a
proper prefix smaller than any extension. -/
def tupleLt : List Nat → List Nat → Bool
  | [], [] => false
  | [], _ :: _ => true
  | _ :: _, [] => false
  | a :: as, b :: bs => if a < b then true else if b < a then false else tupleLt as bs

/-- Embedding of `version_to_tuple` inside `locate_nearest_version`:
`tuple(int(part) for part in version.split("."))`. -/
def version_to_tuple (version : String) : List Nat :=
  (splitStr '.' version).map parseNatStr

/-- Embedding of `tuple_to_version` inside `locate_nearest_version`:
`".".join(str(part) for part in version_tuple)`. -/
def tuple_to_version (version_tuple : List Nat) : String :=
  joinSep "." (version_tuple.map Nat.repr)

/-- The loop of CPython's `bisect.bisect_left`, with an explicit fuel
argument standing for the (finite) number of iterations of the
`while lo < hi` loop; `hi - lo` shrinks by at least one per iteration, so
any fuel `≥ hi - lo` yields the loop's exit value. -/
def bisect_left_loop : Nat → List (List Nat) → List Nat → Nat → Nat → Nat
  | 0, _, _, lo, _ => lo
  | fuel + 1, a, x, lo, hi =>
    if lo < hi then
      if tupleLt (a.getD ((lo + hi) / 2) []) x then
        bisect_left_loop fuel a x ((lo + hi) / 2 + 1) hi
      else
        bisect_left_loop fuel a x lo ((lo + hi) / 2)
    else lo

/-- Embedding of `bisect.bisect_left(a, x)` (the `bisect` imported by
`build_docs.py`). -/
def bisect (a : List (List Nat)) (x : List Nat) : Nat :=
  bisect_left_loop a.length a x 0 a.length

/-- Embedding of `locate_nearest_version`.  The Python function indexes
`available_versions_tuples[bisect(...)]`; an `IndexError` (index one past
the end) falls back to the last element, and an `IndexError` raised by
that fallback on an empty list propagates — modelled by `none`. -/
def locate_nearest_version (available_versions : List String) (target_version : String) :
    Option String :=
  let available_versions_tuples := available_versions.map version_to_tuple
  let target_version_tuple := version_to_tuple target_version
  match available_versions_tuples[bisect available_versions_tuples target_version_tuple]? with
  | some found => some (tuple_to_version found)
  | none => available_versions_tuples.getLast?.map tuple_to_version

/-- Test of the regex `.*/[0-9]+\.[0-9]+$` on one line of `git branch -r`
output, returning `branch.split("/")[-1]` on a match.  Since `/` cannot
occur inside `[0-9]+\.[0-9]+`, the regex matches exactly when the line
contains a `/` and the segment after the last `/` is `digits.digits`. -/
def branch_version_of_line (line : String) : Option String :=
  let parts := splitStr '/' line
  if parts.length < 2 then none
  else
    match parts.getLast? with
    | some last =>
      (match splitStr '.' last with
       | [a, b] =>
         if a ≠ "" ∧ b ≠ "" ∧ a.toList.all (fun c => c.isDigit) ∧
            b.toList.all (fun c => c.isDigit) then some last else none
       | _ => none)
    | none => none

/-- Embedding of `translation_branch`, given the raw output of
`git branch -r` (its side-effecting `git_clone`/`shell_out` calls are the
collaborators that produced that output). -/
def translation_branch (remote_branches : String) (needed_version : String) : Option String :=
  let branches := (splitStr '\n' remote_branches).filterMap branch_version_of_line
  locate_nearest_version branches needed_version

/-- Embedding of `pep_545_tag_to_gettext_tag`.  The Python body guards with
`if "-" not in tag` (the one-component case of `split`), unpacks
`language, region = tag.split("-")` (raising `ValueError`, i.e. `none`,
when the split has more than two components), and returns
`language + "_" + region.upper()`. -/
def pep_545_tag_to_gettext_tag (tag : String) : Option String :=
  match splitStr '-' tag with
  | [_] => some tag
  | [language, region] => some (language ++ "_" ++ strUpper region)
  | _ => none

/-- Directory tree: a regular file with (comparable) content, or a
directory given as a chain of named entries (`dirNil` is the empty
directory, `dirCons name child rest` the directory `rest` extended with
the entry `name ↦ child`).  This is the state `filecmp.dircmp` walks. -/
inductive FsTree where
  | file (content : String)
  | dirNil
  | dirCons (name : String) (child : FsTree) (rest : FsTree)
deriving DecidableEq

/-- Entry of a directory by name (first match), as `os.listdir` plus name
lookup; `none` on files and on absent names. -/
def lookup : FsTree → String → Option FsTree
  | FsTree.dirCons n t rest, m => if n = m then some t else lookup rest m
  | _, _ => none

/-- Names of the entries of a directory. -/
def dirNames : FsTree → List String
  | FsTree.dirCons n _ rest => n :: dirNames rest
  | _ => []

/-- Real directory trees have distinct entry names at every level. -/
def wfKeys : FsTree → Bool
  | FsTree.file _ => true
  | FsTree.dirNil => true
  | FsTree.dirCons n t rest => !((dirNames rest).contains n) && wfKeys t && wfKeys rest

/-- Follows a component path down a tree. -/
def getPath : FsTree → List String → Option FsTree
  | t, [] => some t
  | t, n :: ps =>
    match lookup t n with
    | some c => getPath c ps
    | none => none

/-- The `traverse` recursion of `changed_files` over `filecmp.dircmp`:
for each entry of the left directory, a name that is a file in both trees
contributes `base + name` when the contents differ (`dircmp.diff_files`),
a name that is a directory in both trees is recursed into
(`dircmp.subdirs`), and names missing from the right tree, or of
different kinds in the two trees (`left_only` / `common_funny`), are
skipped.  The inner match spells out every constructor pair (rather than
using wildcard arms) so that each arm yields an unconditional equation
lemma. -/
def changedFilesAux (base : String) : FsTree → FsTree → List String
  | FsTree.file _, _ => []
  | FsTree.dirNil, _ => []
  | FsTree.dirCons n t rest, r =>
    (match t, lookup r n with
     | FsTree.file c, some (FsTree.file d) => if c = d then [] else [base ++ n]
     | FsTree.file _, some FsTree.dirNil => []
     | FsTree.file _, some (FsTree.dirCons _ _ _) => []
     | FsTree.file _, none => []
     | FsTree.dirNil, some (FsTree.file _) => []
     | FsTree.dirNil, some FsTree.dirNil =>
       changedFilesAux (base ++ n ++ "/") FsTree.dirNil FsTree.dirNil
     | FsTree.dirNil, some (FsTree.dirCons a b2 c2) =>
       changedFilesAux (base ++ n ++ "/") FsTree.dirNil (FsTree.dirCons a b2 c2)
     | FsTree.dirNil, none => []
     | FsTree.dirCons _ _ _, some (FsTree.file _) => []
     | FsTree.dirCons a b2 c2, some FsTree.dirNil =>
       changedFilesAux (base ++ n ++ "/") (FsTree.dirCons a b2 c2) FsTree.dirNil
     | FsTree.dirCons a b2 c2, some (FsTree.dirCons e f g) =>
       changedFilesAux (base ++ n ++ "/") (FsTree.dirCons a b2 c2) (FsTree.dirCons e f g)
     | FsTree.dirCons _ _ _, none => [])
    ++ changedFilesAux base rest r

/-- Embedding of `changed_files(left, right)`:
`traverse(filecmp.dircmp(left, right))` with paths relative to `left`
(`pathlib` collapses the `.` base, so the top-level prefix is empty). -/
def changed_files (left right : FsTree) : List String :=
  changedFilesAux "" left right

/-- Specification-side predicate: `ps` is a (nonempty) component path that
denotes a regular file in both trees, whose contents differ — the
"changed file" notion of the spec restricted to files present in both
trees. -/
def isChangedPath (l r : FsTree) (ps : List String) : Prop :=
  ∃ c d, getPath l ps = some (FsTree.file c) ∧ getPath r ps = some (FsTree.file d) ∧ c ≠ d

/-- Python exceptions that the modelled control flow can raise. -/
inductive PyErr where
  | calledProcessError
  | assertionError
deriving DecidableEq

/-- Outcome record of one `shell_out` call. -/
structure ShellResult where
  ret : Option String
  loggedFailure : Bool
  reportedToTelemetry : Bool
deriving DecidableEq

/-- Embedding of `subprocess.check_output`: raises `CalledProcessError`
exactly when the command exits with nonzero status. -/
def check_output (exitCode : Nat) (output : String) : Except PyErr String :=
  if exitCode = 0 then Except.ok output else Except.error PyErr.calledProcessError

/-- Embedding of `shell_out`.  The `try`/`except CalledProcessError`
around `check_output` catches the failure, reports it to the telemetry
sink when one is configured, writes it to the log, and falls off the end
of the function (returning `None`) — it never re-raises. -/
def shell_out (exitCode : Nat) (output : String) (telemetryConfigured : Bool) :
    Except PyErr ShellResult :=
  match check_output exitCode output with
  | Except.ok o => Except.ok ⟨some o, false, false⟩
  | Except.error _ => Except.ok ⟨none, true, telemetryConfigured⟩

/-- Environment of one `git_clone` call: the state of the local directory,
and the exit status each git command would have. -/
structure GitEnv where
  hasGitMetadata : Bool
  dirExists : Bool
  fetchExit : Nat
  checkoutExit : Nat
  resetExit : Nat
  cloneExit : Nat
  postCloneCheckoutExit : Nat
deriving DecidableEq

/-- What a `git_clone` call did. -/
structure CloneTrace where
  removedDir : Bool
  ranFreshClone : Bool
  checkedOutAfterClone : Bool
deriving DecidableEq

/-- Embedding of `git_clone`.  The `try` block raises `AssertionError`
when `directory/.git` is missing and otherwise runs the optimistic
update commands through `shell_out`; the
`except (CalledProcessError, AssertionError)` handler removes the
directory if present, recreates it, and performs the fresh shallow clone
plus optional checkout.  Exceptions escaping the handler propagate as the
overall `Except.error`. -/
def git_clone (env : GitEnv) (branch : Option String) : Except PyErr CloneTrace :=
  let tryBlock : Except PyErr Unit := do
    if !env.hasGitMetadata then
      throw PyErr.assertionError
    let _ ← shell_out env.fetchExit "" false
    match branch with
    | some _ => do
      let _ ← shell_out env.checkoutExit "" false
      let _ ← shell_out env.resetExit "" false
      pure ()
    | none => pure ()
  match tryBlock with
  | Except.ok _ => Except.ok ⟨false, false, false⟩
  | Except.error _ => do
    let _ ← shell_out env.cloneExit "" false
    match branch with
    | some _ => do
      let _ ← shell_out env.postCloneCheckoutExit "" false
      Except.ok ⟨env.dirExists, true, true⟩
    | none => Except.ok ⟨env.dirExists, true, false⟩

/-- What one (version, language) unit of `main`'s loop did. -/
structure UnitRunTrace where
  makeFailureLoggedToUnitLog : Bool
  buildOneReturned : Bool
  publishRan : Bool
  errorCaughtAtOrchestrator : Bool
deriving DecidableEq

/-- Embedding of the `make` invocation inside `build_one` (the external
build step, run through `shell_out` with the unit's log file): yields
whether the failure was logged to that log file; `shell_out` never
raises. -/
def build_one_make_step (makeExit : Nat) : Except PyErr Bool := do
  let r ← shell_out makeExit "" false
  pure r.ret.isNone

/-- Embedding of one iteration of `main`'s per-unit `try` block:
`build_one(...)` followed by `copy_build_to_webroot(...)`, with
`except Exception` catching anything either raises. -/
def run_unit (makeExit : Nat) : UnitRunTrace :=
  match (do
      let logged ← build_one_make_step makeExit
      pure logged : Except PyErr Bool) with
  | Except.ok logged => ⟨logged, true, true, false⟩
  | Except.error _ => ⟨false, false, false, true⟩

/-- Outcome record of one unit in `main`'s double loop. -/
structure OrchUnitResult where
  version : String
  language : String
  completed : Bool
  errorLogged : Bool
  reportedToTelemetry : Bool
deriving DecidableEq

/-- Abstract body of one unit (build + publish); `Except.error` when some
stage raises. -/
def process_unit (fails : Bool) : Except String Unit :=
  if fails then Except.error "stage raised" else Except.ok ()

/-- Embedding of `main`'s orchestration loop over the cross product of
versions and languages: each unit's body runs inside
`try ... except Exception as err`, which logs the error, forwards it to
the telemetry sink when configured, and lets the loop continue. -/
def main_loop (units : List (String × String)) (failsOn : String → String → Bool)
    (telemetryConfigured : Bool) : List OrchUnitResult :=
  match units with
  | [] => []
  | (v, l) :: rest =>
    (match process_unit (failsOn v l) with
     | Except.ok _ => OrchUnitResult.mk v l true false false
     | Except.error _ => OrchUnitResult.mk v l false true telemetryConfigured)
    :: main_loop rest failsOn telemetryConfigured

/-- Process exit status of `main`: the loop swallows per-unit errors and
`main` falls off the end, so the interpreter exits with status 0. -/
def main_exit_status : Nat := 0

/-- The purge path list built by `copy_build_to_webroot`:
`to_purge = prefixes[:]` then, for each alias prefix of the target, every
`prefix + changed_path`. -/
def purge_list (aliases changed : List String) : List String :=
  aliases ++ (aliases.map (fun a => changed.map (fun p => a ++ p))).flatten

/-- The cache-invalidation step of `copy_build_to_webroot`:
`if changed and not skip_cache_invalidation:` issue exactly one batched
purge request (`some` of its path list), else issue none. -/
def cache_invalidation (changed : List String) (skip : Bool) (aliases : List String) :
    Option (List String) :=
  if changed.isEmpty || skip then none else some (purge_list aliases changed)

/-- ChangeSet returned by `copy_build_to_webroot`: the `changed_files`
result, plus — on a non-quick build — the synthetic `archives/` entry and
one `archives/<fn>` entry per file of the target archives directory. -/
def publish_changeset (base_changed archive_files : List String) (quick : Bool) :
    List String :=
  if quick then base_changed
  else base_changed ++ "archives/" :: archive_files.map (fun fn => "archives/" ++ fn)

example : pep_545_tag_to_gettext_tag "fr" = some "fr" := by decide
example : pep_545_tag_to_gettext_tag "pt-br" = some "pt_BR" := by decide
example : locate_nearest_version ["2.7", "3.6", "3.7", "3.8"] "3.9" = some "3.8" := by decide
example : locate_nearest_version ["2.7", "3.6", "3.7", "3.8"] "3.5" = some "3.6" := by decide
example : locate_nearest_version ["2.7", "3.6", "3.7", "3.8"] "2.6" = some "2.7" := by decide
example : locate_nearest_version ["2.7", "3.6", "3.7", "3.8"] "3.10" = some "3.8" := by decide
example : locate_nearest_version ["2.7", "3.6", "3.7", "3.8"] "3.7" = some "3.7" := by decide
example : locate_nearest_version [] "3.7" = none := by decide
example : translation_branch "  origin/3.6\n  origin/master" "3.9" = some "3.6" := by decide
example :
    changed_files
      (FsTree.dirCons "brand.html" (FsTree.file "new page")
        (FsTree.dirCons "index.html" (FsTree.file "v2") FsTree.dirNil))
      (FsTree.dirCons "index.html" (FsTree.file "v1") FsTree.dirNil) = ["index.html"] := by
  decide
example :
    changed_files
      (FsTree.dirCons "sub" (FsTree.dirCons "a.html" (FsTree.file "x") FsTree.dirNil)
        (FsTree.dirCons "top.html" (FsTree.file "t") FsTree.dirNil))
      (FsTree.dirCons "sub" (FsTree.dirCons "a.html" (FsTree.file "y") FsTree.dirNil)
        (FsTree.dirCons "top.html" (FsTree.file "t") FsTree.dirNil)) = ["sub/a.html"] := by
  decide
example : git_clone ⟨true, true, 1, 0, 0, 0, 0⟩ (some "3.9") = Except.ok ⟨false, false, false⟩ :=
  rfl
example : git_clone ⟨false, false, 0, 0, 0, 1, 1⟩ (some "3.9") = Except.ok ⟨false, true, true⟩ :=
  rfl
example : run_unit 2 = ⟨true, true, true, false⟩ := by decide
example : main_loop [("3.9", "fr"), ("3.9", "ja")] (fun _ l => l = "fr") true =
    [⟨"3.9", "fr", false, true, true⟩, ⟨"3.9", "ja", true, false, false⟩] := by decide
example : cache_invalidation [] false ["3.9/"] = none := by decide
example : (purge_list ["3.9/", "fr/3.9/"] ["a", "b"]).length = 6 := by decide

/-! Helper lemmas for the orchestrator loop -/

theorem main_loop_length (units : List (String × String)) (failsOn : String → String → Bool)
    (tc : Bool) : (main_loop units failsOn tc).length = units.length := by
  induction units with
  | nil => rfl
  | cons u rest ih => obtain ⟨v, l⟩ := u; simp [main_loop, ih]

theorem main_loop_mem_ok (units : List (String × String)) (failsOn : String → String → Bool)
    (tc : Bool) (v l : String) (hmem : (v, l) ∈ units) (hok : failsOn v l = false) :
    OrchUnitResult.mk v l true false false ∈ main_loop units failsOn tc := by
  induction units with
  | nil => cases hmem
  | cons u rest ih =>
    obtain ⟨uv, ul⟩ := u
    rcases List.mem_cons.mp hmem with h1 | h2
    · obtain ⟨rfl, rfl⟩ := Prod.mk.injEq .. ▸ h1
      simp [main_loop, process_unit, hok]
    · exact List.mem_cons_of_mem _ (ih h2)

theorem main_loop_mem_failed (units : List (String × String)) (failsOn : String → String → Bool)
    (tc : Bool) (v l : String) (hmem : (v, l) ∈ units) (hf : failsOn v l = true) :
    OrchUnitResult.mk v l false true tc ∈ main_loop units failsOn tc := by
  induction units with
  | nil => cases hmem
  | cons u rest ih =>
    obtain ⟨uv, ul⟩ := u
    rcases List.mem_cons.mp hmem with h1 | h2
    · obtain ⟨rfl, rfl⟩ := Prod.mk.injEq .. ▸ h1
      simp [main_loop, process_unit, hf]
    · exact List.mem_cons_of_mem _ (ih h2)


/-! Helper lemmas for `changed_files` -/

theorem string_empty_append (s : String) : "" ++ s = s := rfl

theorem string_append_assoc (a b c : String) : a ++ b ++ c = a ++ (b ++ c) := by
  exact String.append_assoc a b c

theorem mem_dirNames_of_lookup (r : FsTree) (m : String) (c : FsTree)
    (h : lookup r m = some c) : m ∈ dirNames r := by
  induction r with
  | file content => simp [lookup] at h
  | dirNil => simp [lookup] at h
  | dirCons n t rest iht ihrest =>
    by_cases hnm : n = m
    · subst hnm; simp [dirNames]
    · simp only [lookup, if_neg hnm] at h
      exact List.mem_cons_of_mem _ (ihrest h)

theorem joinPath_cons_of_ne_nil (n : String) (ps : List String) (h : ps ≠ []) :
    joinPath (n :: ps) = n ++ "/" ++ joinPath ps := by
  match ps, h with
  | q :: rest, _ => rfl

theorem getPath_dirCons_self (n : String) (t rest : FsTree) (ps : List String) :
    getPath (FsTree.dirCons n t rest) (n :: ps) = getPath t ps := by
  simp [getPath, lookup]

theorem getPath_dirCons_ne (n : String) (t rest : FsTree) (m : String) (ps : List String)
    (h : n ≠ m) : getPath (FsTree.dirCons n t rest) (m :: ps) = getPath rest (m :: ps) := by
  simp only [getPath, lookup, if_neg h]

theorem isChangedPath_head_ne_of_rest (n : String) (rest r : FsTree) (m : String)
    (ps1 : List String) (hnmem : n ∉ dirNames rest) (h : isChangedPath rest r (m :: ps1)) :
    m ≠ n := by
  obtain ⟨c1, d1, hl, -, -⟩ := h
  rcases hlk : lookup rest m with _ | c2
  · rw [getPath, hlk] at hl; cases hl
  · intro hmn
    exact hnmem (hmn ▸ mem_dirNames_of_lookup rest m c2 hlk)

theorem isChangedPath_dirCons_ne (n : String) (t rest r : FsTree) (m : String)
    (ps1 : List String) (hmn : m ≠ n) :
    isChangedPath (FsTree.dirCons n t rest) r (m :: ps1) ↔ isChangedPath rest r (m :: ps1) := by
  unfold isChangedPath
  rw [getPath_dirCons_ne n t rest m ps1 (fun hh => hmn hh.symm)]

theorem head_iff_dir (n : String) (t rest r tr : FsTree) (base s : String)
    (ht : ∀ c1 : String, t ≠ FsTree.file c1) (hlk : lookup r n = some tr)
    (hih : ∀ (r1 : FsTree) (b1 s1 : String), s1 ∈ changedFilesAux b1 t r1 ↔
      ∃ ps : List String, ps ≠ [] ∧ s1 = b1 ++ joinPath ps ∧ isChangedPath t r1 ps) :
    s ∈ changedFilesAux (base ++ n ++ "/") t tr ↔
      ∃ ps1 : List String, s = base ++ joinPath (n :: ps1) ∧
        isChangedPath (FsTree.dirCons n t rest) r (n :: ps1) := by
  rw [hih tr (base ++ n ++ "/") s]
  constructor
  · rintro ⟨ps2, hne2, hs2, c1, d1, hl, hr2, hb⟩
    refine ⟨ps2, ?_, c1, d1, ?_, ?_, hb⟩
    · rw [hs2, joinPath_cons_of_ne_nil n ps2 hne2]
      simp [string_append_assoc]
    · rw [getPath_dirCons_self]
      exact hl
    · simp only [getPath, hlk]
      exact hr2
  · rintro ⟨ps1, hs, c1, d1, hl, hr2, hb⟩
    rw [getPath_dirCons_self] at hl
    have hne1 : ps1 ≠ [] := by
      rintro rfl
      simp only [getPath, Option.some.injEq] at hl
      exact ht c1 hl
    refine ⟨ps1, hne1, ?_, c1, d1, hl, ?_, hb⟩
    · rw [hs, joinPath_cons_of_ne_nil n ps1 hne1]
      simp [string_append_assoc]
    · simp only [getPath, hlk] at hr2
      exact hr2

theorem mem_changedFilesAux (l : FsTree) (hw : wfKeys l = true) :
    ∀ (r : FsTree) (base s : String),
      (s ∈ changedFilesAux base l r ↔
        ∃ ps : List String, ps ≠ [] ∧ s = base ++ joinPath ps ∧ isChangedPath l r ps) := by
  induction l with
  | file content =>
    intro r base s
    simp only [changedFilesAux, List.not_mem_nil, false_iff]
    rintro ⟨ps, hne, -, c1, d1, hl, -, -⟩
    match ps, hne with
    | m :: ps1, _ => simp [getPath, lookup] at hl
  | dirNil =>
    intro r base s
    simp only [changedFilesAux, List.not_mem_nil, false_iff]
    rintro ⟨ps, hne, -, c1, d1, hl, -, -⟩
    match ps, hne with
    | m :: ps1, _ => simp [getPath, lookup] at hl
  | dirCons n t rest iht ihrest =>
    have hw3 : (n ∉ dirNames rest ∧ wfKeys t = true) ∧ wfKeys rest = true := by
      simpa [wfKeys, Bool.and_eq_true, Bool.not_eq_true'] using hw
    obtain ⟨⟨hnmem, hwt⟩, hwrest⟩ := hw3
    intro r base s
    have hrest := ihrest hwrest r base s
    have hsplit : (∃ ps : List String, ps ≠ [] ∧ s = base ++ joinPath ps ∧
        isChangedPath (FsTree.dirCons n t rest) r ps) ↔
        ((∃ ps1 : List String, s = base ++ joinPath (n :: ps1) ∧
            isChangedPath (FsTree.dirCons n t rest) r (n :: ps1)) ∨
          (∃ ps : List String, ps ≠ [] ∧ s = base ++ joinPath ps ∧ isChangedPath rest r ps)) := by
      constructor
      · rintro ⟨ps, hne, hs, hch⟩
        match ps, hne with
        | m :: ps1, _ =>
          by_cases hmn : m = n
          · subst hmn
            exact Or.inl ⟨ps1, hs, hch⟩
          · exact Or.inr ⟨m :: ps1, by simp, hs,
              (isChangedPath_dirCons_ne n t rest r m ps1 hmn).mp hch⟩
      · rintro (⟨ps1, hs, hch⟩ | ⟨ps, hne, hs, hch⟩)
        · exact ⟨n :: ps1, by simp, hs, hch⟩
        · match ps, hne with
          | m :: ps1, _ =>
            have hmn : m ≠ n := isChangedPath_head_ne_of_rest n rest r m ps1 hnmem hch
            exact ⟨m :: ps1, by simp, hs,
              (isChangedPath_dirCons_ne n t rest r m ps1 hmn).mpr hch⟩
    rw [hsplit]
    rcases hlk : lookup r n with _ | tr
    · have hentry : changedFilesAux base (FsTree.dirCons n t rest) r =
          changedFilesAux base rest r := by
        cases t <;> simp [changedFilesAux, hlk]
      rw [hentry, hrest]
      constructor
      · exact Or.inr
      · rintro (⟨ps1, hs, c1, d1, hl, hr2, hcd⟩ | hp)
        · simp [getPath, hlk] at hr2
        · exact hp
    · cases t with
      | file c =>
        cases tr with
        | file d =>
          rw [changedFilesAux.eq_3 base r n rest c d hlk]
          simp only [List.mem_append, hrest]
          refine or_congr ?_ Iff.rfl
          by_cases hcd : c = d
          · subst hcd
            rw [if_pos rfl]
            simp only [List.not_mem_nil, false_iff]
            rintro ⟨ps1, hs, c1, d1, hl, hr2, hb⟩
            rcases ps1 with _ | ⟨q, qs⟩
            · rw [getPath_dirCons_self] at hl
              simp only [getPath, hlk, Option.some.injEq, FsTree.file.injEq] at hl hr2
              exact hb (hl ▸ hr2 ▸ rfl)
            · rw [getPath_dirCons_self] at hl
              simp [getPath, lookup] at hl
          · simp only [if_neg hcd, List.mem_singleton]
            constructor
            · rintro rfl
              exact ⟨[], rfl, c, d, by rw [getPath_dirCons_self]; rfl, by simp [getPath, hlk], hcd⟩
            · rintro ⟨ps1, hs, c1, d1, hl, hr2, hb⟩
              rcases ps1 with _ | ⟨q, qs⟩
              · exact hs
              · rw [getPath_dirCons_self] at hl
                simp [getPath, lookup] at hl
        | dirNil =>
          simp only [changedFilesAux, hlk, List.mem_append, hrest, List.not_mem_nil, false_or]
          constructor
          · exact Or.inr
          · rintro (⟨ps1, hs, c1, d1, hl, hr2, hb⟩ | hp)
            · rw [getPath_dirCons_self] at hl
              rcases ps1 with _ | ⟨q, qs⟩
              · simp [getPath, hlk] at hr2
              · simp [getPath, lookup] at hl
            · exact hp
        | dirCons a b2 c2 =>
          rw [changedFilesAux.eq_5 base r n rest c a b2 c2 hlk]
          simp only [List.mem_append, hrest, List.not_mem_nil, false_or]
          constructor
          · exact Or.inr
          · rintro (⟨ps1, hs, c1, d1, hl, hr2, hb⟩ | hp)
            · rw [getPath_dirCons_self] at hl
              rcases ps1 with _ | ⟨q, qs⟩
              · simp [getPath, hlk] at hr2
              · simp [getPath, lookup] at hl
            · exact hp
      | dirNil =>
        cases tr with
        | file d =>
          rw [changedFilesAux.eq_7 base r n rest d hlk]
          simp only [List.mem_append, hrest, List.not_mem_nil, false_or]
          constructor
          · exact Or.inr
          · rintro (⟨ps1, hs, c1, d1, hl, hr2, hb⟩ | hp)
            · rw [getPath_dirCons_self] at hl
              rcases ps1 with _ | ⟨q, qs⟩
              · simp [getPath] at hl
              · simp [getPath, lookup, hlk] at hr2
            · exact hp
        | dirNil =>
          rw [changedFilesAux.eq_8 base r n rest hlk]
          simp only [List.mem_append, hrest]
          refine or_congr ?_ Iff.rfl
          exact head_iff_dir n FsTree.dirNil rest r FsTree.dirNil base s
            (fun c1 h => FsTree.noConfusion h) hlk (iht hwt)
        | dirCons a b2 c2 =>
          rw [changedFilesAux.eq_9 base r n rest a b2 c2 hlk]
          simp only [List.mem_append, hrest]
          refine or_congr ?_ Iff.rfl
          exact head_iff_dir n FsTree.dirNil rest r (FsTree.dirCons a b2 c2) base s
            (fun c1 h => FsTree.noConfusion h) hlk (iht hwt)
      | dirCons m u w =>
        cases tr with
        | file d =>
          rw [changedFilesAux.eq_11 base r n rest m u w d hlk]
          simp only [List.mem_append, hrest, List.not_mem_nil, false_or]
          constructor
          · exact Or.inr
          · rintro (⟨ps1, hs, c1, d1, hl, hr2, hb⟩ | hp)
            · rw [getPath_dirCons_self] at hl
              rcases ps1 with _ | ⟨q, qs⟩
              · simp [getPath] at hl
              · simp [getPath, lookup, hlk] at hr2
            · exact hp
        | dirNil =>
          rw [changedFilesAux.eq_12 base r n rest m u w hlk]
          simp only [List.mem_append, hrest]
          refine or_congr ?_ Iff.rfl
          exact head_iff_dir n (FsTree.dirCons m u w) rest r FsTree.dirNil base s
            (fun c1 h => FsTree.noConfusion h) hlk (iht hwt)
        | dirCons a b2 c2 =>
          rw [changedFilesAux.eq_13 base r n rest m u w a b2 c2 hlk]
          simp only [List.mem_append, hrest]
          refine or_congr ?_ Iff.rfl
          exact head_iff_dir n (FsTree.dirCons m u w) rest r (FsTree.dirCons a b2 c2) base s
            (fun c1 h => FsTree.noConfusion h) hlk (iht hwt)

/-! Helper lemmas for `locate_nearest_version` -/

theorem tupleLt_irrefl (a : List Nat) : tupleLt a a = false := by
  induction a with
  | nil => rfl
  | cons x xs ih => simp [tupleLt, ih]

theorem tupleLt_trans : ∀ (a b c : List Nat), tupleLt a b = true → tupleLt b c = true →
    tupleLt a c = true := by
  intro a
  induction a with
  | nil =>
    intro b c h1 h2
    cases b with
    | nil => simp [tupleLt] at h1
    | cons y ys =>
      cases c with
      | nil => simp [tupleLt] at h2
      | cons z zs => simp [tupleLt]
  | cons x xs ih =>
    intro b c h1 h2
    cases b with
    | nil => simp [tupleLt] at h1
    | cons y ys =>
      cases c with
      | nil => simp [tupleLt] at h2
      | cons z zs =>
        simp only [tupleLt] at h1 h2 ⊢
        by_cases hxy : x < y
        · rw [if_pos hxy] at h1
          by_cases hyz : y < z
          · have hxz : x < z := by omega
            rw [if_pos hxz]
          · rw [if_neg hyz] at h2
            by_cases hzy : z < y
            · rw [if_pos hzy] at h2; cases h2
            · have hyzeq : y = z := by omega
              have hxz : x < z := by omega
              rw [if_pos hxz]
        · rw [if_neg hxy] at h1
          by_cases hyx : y < x
          · rw [if_pos hyx] at h1; cases h1
          · have hxyeq : x = y := by omega
            rw [if_neg hyx] at h1
            subst hxyeq
            by_cases hxz : x < z
            · rw [if_pos hxz]
            · rw [if_neg hxz] at h2 ⊢
              by_cases hzx : z < x
              · rw [if_pos hzx] at h2; cases h2
              · rw [if_neg hzx] at h2 ⊢
                exact ih ys zs h1 h2

theorem tupleLt_conn : ∀ (a b : List Nat), tupleLt a b = false → tupleLt b a = false →
    a = b := by
  intro a
  induction a with
  | nil =>
    intro b h1 h2
    cases b with
    | nil => rfl
    | cons y ys => simp [tupleLt] at h1
  | cons x xs ih =>
    intro b h1 h2
    cases b with
    | nil => simp [tupleLt] at h2
    | cons y ys =>
      simp only [tupleLt] at h1 h2
      by_cases hxy : x < y
      · rw [if_pos hxy] at h1; cases h1
      · by_cases hyx : y < x
        · rw [if_pos hyx] at h2; cases h2
        · have hxyeq : x = y := by omega
          rw [if_neg hxy, if_neg hyx] at h1
          rw [if_neg hyx, if_neg hxy] at h2
          subst hxyeq
          rw [ih ys h1 h2]

theorem tupleLt_lt_of_le_of_lt (a b c : List Nat) (h1 : tupleLt b a = false)
    (h2 : tupleLt b c = true) : tupleLt a c = true := by
  by_cases h : tupleLt a b = true
  · exact tupleLt_trans a b c h h2
  · have hab : a = b := tupleLt_conn a b (by simpa using h) h1
    rw [hab]
    exact h2

theorem bisect_left_loop_spec (a : List (List Nat)) (x : List Nat)
    (hs : ∀ i j : Nat, i < j → j < a.length → tupleLt (a.getD j []) (a.getD i []) = false) :
    ∀ (fuel lo hi : Nat), lo ≤ hi → hi ≤ a.length → hi - lo ≤ fuel →
      (∀ j, j < lo → tupleLt (a.getD j []) x = true) →
      (∀ j, hi ≤ j → j < a.length → tupleLt (a.getD j []) x = false) →
      lo ≤ bisect_left_loop fuel a x lo hi ∧ bisect_left_loop fuel a x lo hi ≤ hi ∧
      (∀ j, j < bisect_left_loop fuel a x lo hi → tupleLt (a.getD j []) x = true) ∧
      (∀ j, bisect_left_loop fuel a x lo hi ≤ j → j < a.length →
        tupleLt (a.getD j []) x = false) := by
  intro fuel
  induction fuel with
  | zero =>
    intro lo hi hlohi hhi hfuel hbelow habove
    have heq : hi = lo := by omega
    subst heq
    simp only [bisect_left_loop]
    exact ⟨Nat.le_refl _, Nat.le_refl _, hbelow, habove⟩
  | succ fuel ih =>
    intro lo hi hlohi hhi hfuel hbelow habove
    by_cases hlh : lo < hi
    · have hmid1 : lo ≤ (lo + hi) / 2 := by omega
      have hmid2 : (lo + hi) / 2 < hi := by omega
      have hmidlen : (lo + hi) / 2 < a.length := by omega
      simp only [bisect_left_loop, if_pos hlh]
      by_cases hcmp : tupleLt (a.getD ((lo + hi) / 2) []) x = true
      · rw [if_pos hcmp]
        have hbelow2 : ∀ j, j < (lo + hi) / 2 + 1 → tupleLt (a.getD j []) x = true := by
          intro j hj
          by_cases hjlo : j < lo
          · exact hbelow j hjlo
          · by_cases hjmid : j = (lo + hi) / 2
            · rw [hjmid]; exact hcmp
            · have hjlt : j < (lo + hi) / 2 := by omega
              exact tupleLt_lt_of_le_of_lt (a.getD j []) (a.getD ((lo + hi) / 2) []) x
                (hs j ((lo + hi) / 2) hjlt hmidlen) hcmp
        obtain ⟨h1, h2, h3, h4⟩ :=
          ih ((lo + hi) / 2 + 1) hi (by omega) hhi (by omega) hbelow2 habove
        exact ⟨by omega, h2, h3, h4⟩
      · rw [if_neg hcmp]
        have hcmpf : tupleLt (a.getD ((lo + hi) / 2) []) x = false := by
          simpa using hcmp
        have habove2 : ∀ j, (lo + hi) / 2 ≤ j → j < a.length →
            tupleLt (a.getD j []) x = false := by
          intro j hj hjlen
          by_cases hjmid : j = (lo + hi) / 2
          · rw [hjmid]; exact hcmpf
          · have hjgt : (lo + hi) / 2 < j := by omega
            by_cases habs : tupleLt (a.getD j []) x = true
            · have hc := tupleLt_lt_of_le_of_lt (a.getD ((lo + hi) / 2) []) (a.getD j []) x
                (hs ((lo + hi) / 2) j hjgt hjlen) habs
              rw [hc] at hcmpf
              cases hcmpf
            · simpa using habs
        obtain ⟨h1, h2, h3, h4⟩ :=
          ih lo ((lo + hi) / 2) (by omega) (by omega) (by omega) hbelow habove2
        exact ⟨h1, by omega, h3, h4⟩
    · have heq : hi = lo := by omega
      subst heq
      simp only [bisect_left_loop, if_neg hlh]
      exact ⟨Nat.le_refl _, Nat.le_refl _, hbelow, habove⟩

theorem bisect_spec (a : List (List Nat)) (x : List Nat)
    (hs : ∀ i j : Nat, i < j → j < a.length → tupleLt (a.getD j []) (a.getD i []) = false) :
    bisect a x ≤ a.length ∧
    (∀ j, j < bisect a x → tupleLt (a.getD j []) x = true) ∧
    (∀ j, bisect a x ≤ j → j < a.length → tupleLt (a.getD j []) x = false) := by
  have h := bisect_left_loop_spec a x hs a.length 0 a.length (Nat.zero_le _) (Nat.le_refl _)
    (by omega) (fun j hj => absurd hj (Nat.not_lt_zero j)) (fun j hj hlen => absurd hlen (by omega))
  exact ⟨h.2.1, h.2.2.1, h.2.2.2⟩

theorem locate_eq (A : List String) (t : String) :
    locate_nearest_version A t =
      match (A.map version_to_tuple)[bisect (A.map version_to_tuple) (version_to_tuple t)]? with
      | some found => some (tuple_to_version found)
      | none => (A.map version_to_tuple).getLast?.map tuple_to_version := rfl

theorem locate_eq_of_lt (A : List String) (t : String)
    (h : bisect (A.map version_to_tuple) (version_to_tuple t) < (A.map version_to_tuple).length) :
    locate_nearest_version A t =
      some (tuple_to_version
        ((A.map version_to_tuple).getD (bisect (A.map version_to_tuple) (version_to_tuple t)) [])) := by
  rw [locate_eq, List.getElem?_eq_getElem h, List.getD_eq_getElem?_getD,
    List.getElem?_eq_getElem h]
  simp

theorem locate_eq_of_ge (A : List String) (t : String)
    (h : (A.map version_to_tuple).length ≤ bisect (A.map version_to_tuple) (version_to_tuple t)) :
    locate_nearest_version A t = (A.map version_to_tuple).getLast?.map tuple_to_version := by
  rw [locate_eq, List.getElem?_eq_none h]

theorem getD_mem_of_lt {α : Type} (l : List α) (d : α) (j : Nat) (h : j < l.length) :
    l.getD j d ∈ l := by
  rw [List.getD_eq_getElem?_getD, List.getElem?_eq_getElem h]
  exact List.getElem_mem h

theorem exists_getD_of_mem {α : Type} (l : List α) (d : α) (s : α) (h : s ∈ l) :
    ∃ j, j < l.length ∧ l.getD j d = s := by
  obtain ⟨j, hj, hjs⟩ := List.mem_iff_getElem.mp h
  refine ⟨j, hj, ?_⟩
  rw [List.getD_eq_getElem?_getD, List.getElem?_eq_getElem hj]
  exact hjs

theorem getLast?_eq_getD {α : Type} (l : List α) (d : α) (h : l ≠ []) :
    l.getLast? = some (l.getD (l.length - 1) d) := by
  have hlt : l.length - 1 < l.length := by
    have := List.length_pos.mpr h
    omega
  rw [List.getLast?_eq_getElem?, List.getElem?_eq_getElem hlt,
    List.getD_eq_getElem?_getD, List.getElem?_eq_getElem hlt]
  rfl

theorem getD_map_vt (A : List String) (j : Nat) (h : j < A.length) :
    (A.map version_to_tuple).getD j [] = version_to_tuple (A.getD j "") := by
  have hm : j < (A.map version_to_tuple).length := by
    rw [List.length_map]; exact h
  rw [List.getD_eq_getElem?_getD, List.getElem?_eq_getElem hm,
    List.getD_eq_getElem?_getD, List.getElem?_eq_getElem h]
  simp

theorem sorted_getD (A : List String)
    (hsort : (A.map version_to_tuple).Pairwise (fun u v => tupleLt v u = false)) :
    ∀ i j : Nat, i < j → j < (A.map version_to_tuple).length →
      tupleLt ((A.map version_to_tuple).getD j []) ((A.map version_to_tuple).getD i [])
        = false := by
  intro i j hij hj
  have hi : i < (A.map version_to_tuple).length := by omega
  rw [List.getD_eq_getElem?_getD, List.getElem?_eq_getElem hj,
    List.getD_eq_getElem?_getD, List.getElem?_eq_getElem hi]
  exact List.pairwise_iff_getElem.mp hsort i j hi hj hij

theorem locate_nearest_version_correct (A : List String) (t : String) (hne : A ≠ [])
    (hsort : (A.map version_to_tuple).Pairwise (fun u v => tupleLt v u = false))
    (hcanon : ∀ s ∈ A, tuple_to_version (version_to_tuple s) = s) :
    (∃ r, locate_nearest_version A t = some r ∧ r ∈ A
      ∧ ((∃ s ∈ A, tupleLt (version_to_tuple s) (version_to_tuple t) = false) →
          tupleLt (version_to_tuple r) (version_to_tuple t) = false
          ∧ ∀ s ∈ A, tupleLt (version_to_tuple s) (version_to_tuple t) = false →
              tupleLt (version_to_tuple s) (version_to_tuple r) = false)
      ∧ ((∀ s ∈ A, tupleLt (version_to_tuple s) (version_to_tuple t) = true) →
          ∀ s ∈ A, tupleLt (version_to_tuple r) (version_to_tuple s) = false))
    ∧ (t ∈ A → locate_nearest_version A t = some t) := by
  have hsD := sorted_getD A hsort
  obtain ⟨hle, hbelow, habove⟩ := bisect_spec (A.map version_to_tuple) (version_to_tuple t) hsD
  have hlen : (A.map version_to_tuple).length = A.length := List.length_map A version_to_tuple
  have hAidx : ∀ s ∈ A, ∃ j, j < A.length ∧ A.getD j "" = s := fun s hs =>
    exists_getD_of_mem A "" s hs
  rcases Nat.lt_or_ge (bisect (A.map version_to_tuple) (version_to_tuple t))
      (A.map version_to_tuple).length with hcase | hcase
  · -- insertion index in range: result is the first element ≥ target
    have hiA : bisect (A.map version_to_tuple) (version_to_tuple t) < A.length := by omega
    have hfound : (A.map version_to_tuple).getD
          (bisect (A.map version_to_tuple) (version_to_tuple t)) [] =
        version_to_tuple (A.getD (bisect (A.map version_to_tuple) (version_to_tuple t)) "") :=
      getD_map_vt A _ hiA
    have hmem : A.getD (bisect (A.map version_to_tuple) (version_to_tuple t)) "" ∈ A :=
      getD_mem_of_lt A "" _ hiA
    have hres : locate_nearest_version A t =
        some (A.getD (bisect (A.map version_to_tuple) (version_to_tuple t)) "") := by
      rw [locate_eq_of_lt A t hcase, hfound, hcanon _ hmem]
    have hvtr : tupleLt ((A.map version_to_tuple).getD
          (bisect (A.map version_to_tuple) (version_to_tuple t)) []) (version_to_tuple t)
        = false := habove _ (Nat.le_refl _) hcase
    refine ⟨⟨A.getD (bisect (A.map version_to_tuple) (version_to_tuple t)) "",
      hres, hmem, ?_, ?_⟩, ?_⟩
    · rintro ⟨s, hsA, hsle⟩
      constructor
      · rw [← hfound]
        exact hvtr
      · intro s2 hs2 hs2le
        obtain ⟨j0, hj0, hj0eq⟩ := hAidx s2 hs2
        have hj0T : (A.map version_to_tuple).getD j0 [] = version_to_tuple s2 := by
          rw [getD_map_vt A j0 hj0, hj0eq]
        have hige : bisect (A.map version_to_tuple) (version_to_tuple t) ≤ j0 := by
          by_contra hlt
          push_neg at hlt
          have hb := hbelow j0 hlt
          rw [hj0T, hs2le] at hb
          cases hb
        rw [← hfound, ← hj0T]
        rcases Nat.eq_or_lt_of_le hige with heq | hlt
        · rw [heq]
          exact tupleLt_irrefl _
        · exact hsD _ j0 hlt (by omega)
    · intro hall
      have h1 := hall _ hmem
      have h2 := hvtr
      rw [hfound, h1] at h2
      cases h2
    · intro htA
      obtain ⟨j0, hj0, hj0eq⟩ := hAidx t htA
      have hj0T : (A.map version_to_tuple).getD j0 [] = version_to_tuple t := by
        rw [getD_map_vt A j0 hj0, hj0eq]
      have hxx : tupleLt ((A.map version_to_tuple).getD j0 []) (version_to_tuple t) = false := by
        rw [hj0T]
        exact tupleLt_irrefl _
      have hige : bisect (A.map version_to_tuple) (version_to_tuple t) ≤ j0 := by
        by_contra hlt
        push_neg at hlt
        have hb := hbelow j0 hlt
        rw [hxx] at hb
        cases hb
      have haTix : (A.map version_to_tuple).getD
          (bisect (A.map version_to_tuple) (version_to_tuple t)) [] = version_to_tuple t := by
        rcases Nat.eq_or_lt_of_le hige with heq | hlt
        · rw [heq, hj0T]
        · refine tupleLt_conn _ _ hvtr ?_
          have hs2 := hsD _ j0 hlt (by omega)
          rw [hj0T] at hs2
          exact hs2
      rw [locate_eq_of_lt A t hcase, haTix, hcanon t htA]
  · -- insertion index past the end: result is the last element
    have hA0 : 0 < A.length := List.length_pos.mpr hne
    have haTne : A.map version_to_tuple ≠ [] := by
      intro h
      rw [h] at hlen
      simp at hlen
      omega
    have hklen : (A.map version_to_tuple).length - 1 < (A.map version_to_tuple).length := by
      omega
    have hkA : (A.map version_to_tuple).length - 1 < A.length := by omega
    have hfound : (A.map version_to_tuple).getD ((A.map version_to_tuple).length - 1) [] =
        version_to_tuple (A.getD ((A.map version_to_tuple).length - 1) "") :=
      getD_map_vt A _ hkA
    have hmem : A.getD ((A.map version_to_tuple).length - 1) "" ∈ A :=
      getD_mem_of_lt A "" _ hkA
    have hres : locate_nearest_version A t =
        some (A.getD ((A.map version_to_tuple).length - 1) "") := by
      rw [locate_eq_of_ge A t hcase, getLast?_eq_getD (A.map version_to_tuple) [] haTne]
      rw [Option.map_some']
      rw [hfound, hcanon _ hmem]
    refine ⟨⟨A.getD ((A.map version_to_tuple).length - 1) "", hres, hmem, ?_, ?_⟩, ?_⟩
    · rintro ⟨s, hsA, hsle⟩
      obtain ⟨j0, hj0, hj0eq⟩ := hAidx s hsA
      have hj0T : (A.map version_to_tuple).getD j0 [] = version_to_tuple s := by
        rw [getD_map_vt A j0 hj0, hj0eq]
      have hb := hbelow j0 (by omega)
      rw [hj0T, hsle] at hb
      cases hb
    · intro hall s2 hs2
      obtain ⟨j0, hj0, hj0eq⟩ := hAidx s2 hs2
      have hj0T : (A.map version_to_tuple).getD j0 [] = version_to_tuple s2 := by
        rw [getD_map_vt A j0 hj0, hj0eq]
      rw [← hfound, ← hj0T]
      rcases Nat.eq_or_lt_of_le (show j0 ≤ (A.map version_to_tuple).length - 1 by omega)
        with heq | hlt
      · rw [heq]
        exact tupleLt_irrefl _
      · exact hsD j0 _ hlt hklen
    · intro htA
      obtain ⟨j0, hj0, hj0eq⟩ := hAidx t htA
      have hj0T : (A.map version_to_tuple).getD j0 [] = version_to_tuple t := by
        rw [getD_map_vt A j0 hj0, hj0eq]
      have hb := hbelow j0 (by omega)
      rw [hj0T] at hb
      rw [tupleLt_irrefl] at hb
      cases hb

/-! Claim theorems for `changed_files` (C2) -/

/-- C2 (counterexample): `filecmp.dircmp.diff_files` only contains files
present in both trees, so a file present in `built_tree` and absent from
`target_dir` (here `brand.html`) is not reported by `changed_files`:
adding one new file and modifying one existing file yields only the
modified file's path, not both paths as the claim states. -/
theorem C2_new_file_not_reported_counterexample :
    changed_files
        (FsTree.dirCons "brand.html" (FsTree.file "new page")
          (FsTree.dirCons "index.html" (FsTree.file "v2") FsTree.dirNil))
        (FsTree.dirCons "index.html" (FsTree.file "v1") FsTree.dirNil) = ["index.html"]
    ∧ "brand.html" ∉ changed_files
        (FsTree.dirCons "brand.html" (FsTree.file "new page")
          (FsTree.dirCons "index.html" (FsTree.file "v2") FsTree.dirNil))
        (FsTree.dirCons "index.html" (FsTree.file "v1") FsTree.dirNil)
    ∧ getPath
        (FsTree.dirCons "brand.html" (FsTree.file "new page")
          (FsTree.dirCons "index.html" (FsTree.file "v2") FsTree.dirNil))
        ["brand.html"] = some (FsTree.file "new page")
    ∧ getPath (FsTree.dirCons "index.html" (FsTree.file "v1") FsTree.dirNil)
        ["brand.html"] = none := by
  decide

/-- C2 (amended): for trees with distinct entry names per directory,
`changed_files built_tree target_dir` contains exactly the slash-joined
paths of regular files reachable in BOTH trees whose contents differ;
files present in only one tree are not reported. -/
theorem C2_changed_files_characterization (left right : FsTree) (hw : wfKeys left = true)
    (s : String) :
    s ∈ changed_files left right ↔
      ∃ ps : List String, ps ≠ [] ∧ s = joinPath ps ∧ isChangedPath left right ps := by
  rw [show changed_files left right = changedFilesAux "" left right from rfl,
    mem_changedFilesAux left hw right "" s]
  simp [string_empty_append]

/-- Witness for the amended C2 at the counterexample trees and the path
`index.html`. -/
theorem C2_changed_files_characterization_witness :
    wfKeys (FsTree.dirCons "brand.html" (FsTree.file "new page")
        (FsTree.dirCons "index.html" (FsTree.file "v2") FsTree.dirNil)) = true
    ∧ ("index.html" ∈ changed_files
          (FsTree.dirCons "brand.html" (FsTree.file "new page")
            (FsTree.dirCons "index.html" (FsTree.file "v2") FsTree.dirNil))
          (FsTree.dirCons "index.html" (FsTree.file "v1") FsTree.dirNil) ↔
        ∃ ps : List String, ps ≠ [] ∧ "index.html" = joinPath ps ∧
          isChangedPath
            (FsTree.dirCons "brand.html" (FsTree.file "new page")
              (FsTree.dirCons "index.html" (FsTree.file "v2") FsTree.dirNil))
            (FsTree.dirCons "index.html" (FsTree.file "v1") FsTree.dirNil) ps) :=
  ⟨by decide, C2_changed_files_characterization _ _ (by decide) "index.html"⟩

/-! Claim theorems (error handling and invalidation) -/

/-- C9: for every external command invocation via `shell_out`, a nonzero
exit status does not raise: the failure is logged (and reported to
telemetry when configured) and the caller receives `None` instead of the
command's output. -/
theorem C9_shell_out_swallows_failures (exitCode : Nat) (output : String)
    (telemetryConfigured : Bool) (h : exitCode ≠ 0) :
    shell_out exitCode output telemetryConfigured =
      Except.ok ⟨none, true, telemetryConfigured⟩ := by
  simp [shell_out, check_output, h]

/-- Witness for C9 at exit status 1 with telemetry configured. -/
theorem C9_shell_out_swallows_failures_witness :
    shell_out 1 "out" true = Except.ok ⟨none, true, true⟩ :=
  C9_shell_out_swallows_failures 1 "out" true (by decide)

/-- C3 (code evaluation): with `directory/.git` present and `git fetch`
(or `git checkout`) exiting nonzero, `git_clone` neither removes the
directory nor re-clones, and returns normally; and in the fallback path a
failing `git clone` does not propagate an error.  `shell_out` swallows
`CalledProcessError`, so the `except (CalledProcessError, AssertionError)`
branch of `git_clone` is reachable only through the `AssertionError`. -/
theorem C3_update_failure_skips_fallback :
    git_clone ⟨true, true, 1, 0, 0, 0, 0⟩ (some "3.9") = Except.ok ⟨false, false, false⟩
    ∧ git_clone ⟨true, true, 0, 7, 0, 0, 0⟩ (some "3.9") = Except.ok ⟨false, false, false⟩
    ∧ git_clone ⟨false, false, 0, 0, 0, 1, 1⟩ (some "3.9") = Except.ok ⟨false, true, true⟩ :=
  ⟨rfl, rfl, rfl⟩

/-- C4 (code evaluation): when the external `make` step exits nonzero, the
failure is logged to the unit's log file, but `build_one` still returns
normally and `copy_build_to_webroot` runs for that unit. -/
theorem C4_build_failure_still_publishes :
    run_unit 2 = ⟨true, true, true, false⟩
    ∧ (∀ makeExit : Nat, (run_unit makeExit).publishRan = true) := by
  refine ⟨rfl, ?_⟩
  intro makeExit
  by_cases h : makeExit = 0 <;>
    simp [run_unit, build_one_make_step, shell_out, check_output, h]

/-- C7: an unhandled error from one unit is caught at the orchestrator
boundary, logged and forwarded to telemetry, and processing continues:
every unit of the run yields a result, non-failing units complete even
when other units fail, and the process exit status stays 0.  Concretely,
a failure on (A, X) does not prevent (A, Y) or (B, X) from completing. -/
theorem C7_orchestrator_isolation (units : List (String × String))
    (failsOn : String → String → Bool) (tc : Bool) :
    (main_loop units failsOn tc).length = units.length
    ∧ (∀ v l, (v, l) ∈ units → failsOn v l = false →
        OrchUnitResult.mk v l true false false ∈ main_loop units failsOn tc)
    ∧ (∀ v l, (v, l) ∈ units → failsOn v l = true →
        OrchUnitResult.mk v l false true tc ∈ main_loop units failsOn tc)
    ∧ main_exit_status = 0
    ∧ main_loop [("A", "X"), ("A", "Y"), ("B", "X")] (fun v l => v == "A" && l == "X") tc
        = [⟨"A", "X", false, true, tc⟩, ⟨"A", "Y", true, false, false⟩,
           ⟨"B", "X", true, false, false⟩] := by
  refine ⟨main_loop_length units failsOn tc, ?_, ?_, rfl, ?_⟩
  · intro v l hmem hok; exact main_loop_mem_ok units failsOn tc v l hmem hok
  · intro v l hmem hf; exact main_loop_mem_failed units failsOn tc v l hmem hf
  · cases tc <;> decide

/-- Witness for C7 on a concrete three-unit run where (A, X) fails. -/
theorem C7_orchestrator_isolation_witness :
    (("A", "Y") ∈ [("A", "X"), ("A", "Y"), ("B", "X")]
      ∧ (fun v l => v == "A" && l == "X") "A" "Y" = false)
    ∧ OrchUnitResult.mk "A" "Y" true false false ∈
        main_loop [("A", "X"), ("A", "Y"), ("B", "X")] (fun v l => v == "A" && l == "X") true :=
  ⟨⟨by decide, by decide⟩,
    (C7_orchestrator_isolation [("A", "X"), ("A", "Y"), ("B", "X")]
      (fun v l => v == "A" && l == "X") true).2.1 "A" "Y" (by decide) (by decide)⟩

/-- C8: when no remote branch matches the `major.minor` pattern,
`translation_branch` surfaces an error (the `IndexError` of
`locate_nearest_version` on an empty collection, modelled `none`) instead
of silently choosing a branch; `locate_nearest_version` yields `none` on
every empty `available_versions`. -/
theorem C8_no_translation_available :
    (∀ target : String, locate_nearest_version [] target = none)
    ∧ (∀ remote_branches needed : String,
        (splitStr '\n' remote_branches).filterMap branch_version_of_line = [] →
        translation_branch remote_branches needed = none)
    ∧ translation_branch "  origin/HEAD -> origin/master\n  origin/master" "3.9" = none := by
  refine ⟨fun _ => rfl, ?_, by decide⟩
  intro rb needed h
  simp only [translation_branch, h]
  rfl

/-- Witness for C8 on `git branch -r` output with no version branch. -/
theorem C8_no_translation_available_witness :
    (splitStr '\n' "  origin/master").filterMap branch_version_of_line = []
    ∧ translation_branch "  origin/master" "3.9" = none :=
  ⟨by decide, C8_no_translation_available.2.1 "  origin/master" "3.9" (by decide)⟩

/-- C5: no purge request is issued when the ChangeSet is empty or
invalidation is disabled; otherwise exactly one batched request is issued
whose path list consists of every alias of the target plus, for each
alias and each changed path, `alias ++ changed_path`.  Concretely, a
ChangeSet of size 2 with two aliases gives exactly 6 distinct entries. -/
theorem C5_cache_invalidation_paths :
    (∀ (changed aliases : List String) (skip : Bool),
        changed = [] ∨ skip = true → cache_invalidation changed skip aliases = none)
    ∧ (∀ changed aliases : List String, changed ≠ [] →
        cache_invalidation changed false aliases = some (purge_list aliases changed))
    ∧ (∀ (aliases changed : List String) (x : String),
        x ∈ purge_list aliases changed ↔
          x ∈ aliases ∨ ∃ a ∈ aliases, ∃ p ∈ changed, x = a ++ p)
    ∧ (purge_list ["3.9/", "fr/3.9/"] ["library/os.html", "contents.html"]).length = 6
    ∧ (purge_list ["3.9/", "fr/3.9/"] ["library/os.html", "contents.html"]).Nodup
    ∧ cache_invalidation ["library/os.html", "contents.html"] false ["3.9/", "fr/3.9/"]
        = some (purge_list ["3.9/", "fr/3.9/"] ["library/os.html", "contents.html"]) := by
  refine ⟨?_, ?_, ?_, by decide, by decide, by decide⟩
  · rintro changed aliases skip (rfl | rfl) <;> simp [cache_invalidation]
  · intro changed aliases h
    simp [cache_invalidation, h]
  · intro aliases changed x
    simp only [purge_list, List.mem_append, List.mem_flatten, List.mem_map]
    constructor
    · rintro (h | ⟨l, ⟨a, ha, rfl⟩, hx⟩)
      · exact Or.inl h
      · obtain ⟨p, hp, rfl⟩ := List.mem_map.mp hx
        exact Or.inr ⟨a, ha, p, hp, rfl⟩
    · rintro (h | ⟨a, ha, p, hp, rfl⟩)
      · exact Or.inl h
      · exact Or.inr ⟨changed.map (fun q => a ++ q), ⟨a, ha, rfl⟩, List.mem_map_of_mem _ hp⟩

/-- Witness for C5 with a singleton ChangeSet and one alias. -/
theorem C5_cache_invalidation_paths_witness :
    (["library/os.html"] : List String) ≠ []
    ∧ cache_invalidation ["library/os.html"] false ["3.9/"]
        = some (purge_list ["3.9/"] ["library/os.html"]) :=
  ⟨by decide, C5_cache_invalidation_paths.2.1 ["library/os.html"] ["3.9/"] (by decide)⟩

/-- C10: a non-quick publish always appends `archives/` plus one entry per
file of the target archives directory to the ChangeSet, so the ChangeSet
is never empty and the purge request is issued whenever invalidation is
not disabled. -/
theorem C10_nonquick_changeset_never_empty (base_changed archive_files aliases : List String) :
    "archives/" ∈ publish_changeset base_changed archive_files false
    ∧ publish_changeset base_changed archive_files false ≠ []
    ∧ (publish_changeset base_changed archive_files false).length
        = base_changed.length + 1 + archive_files.length
    ∧ cache_invalidation (publish_changeset base_changed archive_files false) false aliases
        = some (purge_list aliases (publish_changeset base_changed archive_files false))
    ∧ cache_invalidation (publish_changeset base_changed archive_files false) true aliases
        = none := by
  have hmem : "archives/" ∈ publish_changeset base_changed archive_files false := by
    simp [publish_changeset]
  have hne : publish_changeset base_changed archive_files false ≠ [] :=
    fun h => by simp [h] at hmem
  refine ⟨hmem, hne, ?_, ?_, ?_⟩
  · simp [publish_changeset]
    omega
  · simp [cache_invalidation, List.isEmpty_eq_false.mpr hne]
  · simp [cache_invalidation]

/-- C6: a tag with no region separator is returned unchanged; a tag with
one separator is split into language and region, the region is
uppercased, and the two are joined with an underscore.  Concretely,
`fr ↦ fr`, `pt-br ↦ pt_BR`, `zh-cn ↦ zh_CN`. -/
theorem C6_pep_545_tag_transform :
    (∀ tag t : String, splitStr '-' tag = [t] → pep_545_tag_to_gettext_tag tag = some tag)
    ∧ (∀ tag language region : String, splitStr '-' tag = [language, region] →
        pep_545_tag_to_gettext_tag tag = some (language ++ "_" ++ strUpper region))
    ∧ pep_545_tag_to_gettext_tag "fr" = some "fr"
    ∧ pep_545_tag_to_gettext_tag "pt-br" = some "pt_BR"
    ∧ pep_545_tag_to_gettext_tag "zh-cn" = some "zh_CN" := by
  refine ⟨?_, ?_, by decide, by decide, by decide⟩
  · intro tag t h; simp [pep_545_tag_to_gettext_tag, h]
  · intro tag language region h; simp [pep_545_tag_to_gettext_tag, h]

/-- Witness for C6 on the tag `pt-br`. -/
theorem C6_pep_545_tag_transform_witness :
    splitStr '-' "pt-br" = ["pt", "br"]
    ∧ pep_545_tag_to_gettext_tag "pt-br" = some ("pt" ++ "_" ++ strUpper "br") :=
  ⟨by decide, C6_pep_545_tag_transform.2.1 "pt-br" "pt" "br" (by decide)⟩

/-- C1: on a non-empty sorted list of canonical `major.minor` version
strings, `locate_nearest_version` returns a member of the list; an exact
match returns itself; when some available version is `≥` the target
(numerically, per component), the result is the smallest such version;
when all available versions are `<` the target, the result is the
largest available version.  Concretely, on `["2.7","3.6","3.7","3.8"]`:
`3.9 ↦ 3.8`, `3.5 ↦ 3.6`, `2.6 ↦ 2.7`, `3.10 ↦ 3.8`, `3.7 ↦ 3.7`. -/
theorem C1_locate_nearest_version_spec (A : List String) (t : String) (hne : A ≠ [])
    (hsort : (A.map version_to_tuple).Pairwise (fun u v => tupleLt v u = false))
    (hcanon : ∀ s ∈ A, tuple_to_version (version_to_tuple s) = s) :
    ((∃ r, locate_nearest_version A t = some r ∧ r ∈ A
      ∧ ((∃ s ∈ A, tupleLt (version_to_tuple s) (version_to_tuple t) = false) →
          tupleLt (version_to_tuple r) (version_to_tuple t) = false
          ∧ ∀ s ∈ A, tupleLt (version_to_tuple s) (version_to_tuple t) = false →
              tupleLt (version_to_tuple s) (version_to_tuple r) = false)
      ∧ ((∀ s ∈ A, tupleLt (version_to_tuple s) (version_to_tuple t) = true) →
          ∀ s ∈ A, tupleLt (version_to_tuple r) (version_to_tuple s) = false))
    ∧ (t ∈ A → locate_nearest_version A t = some t))
    ∧ (locate_nearest_version ["2.7", "3.6", "3.7", "3.8"] "3.9" = some "3.8"
      ∧ locate_nearest_version ["2.7", "3.6", "3.7", "3.8"] "3.5" = some "3.6"
      ∧ locate_nearest_version ["2.7", "3.6", "3.7", "3.8"] "2.6" = some "2.7"
      ∧ locate_nearest_version ["2.7", "3.6", "3.7", "3.8"] "3.10" = some "3.8"
      ∧ locate_nearest_version ["2.7", "3.6", "3.7", "3.8"] "3.7" = some "3.7") :=
  ⟨locate_nearest_version_correct A t hne hsort hcanon,
    by decide, by decide, by decide, by decide, by decide⟩

/-- Witness for C1 on the doctest list with target `3.9`. -/
theorem C1_locate_nearest_version_spec_witness :
    (["2.7", "3.6", "3.7", "3.8"] : List String) ≠ []
    ∧ (∃ r, locate_nearest_version ["2.7", "3.6", "3.7", "3.8"] "3.9" = some r
        ∧ r ∈ ["2.7", "3.6", "3.7", "3.8"]
        ∧ ((∃ s ∈ ["2.7", "3.6", "3.7", "3.8"],
              tupleLt (version_to_tuple s) (version_to_tuple "3.9") = false) →
            tupleLt (version_to_tuple r) (version_to_tuple "3.9") = false
            ∧ ∀ s ∈ ["2.7", "3.6", "3.7", "3.8"],
                tupleLt (version_to_tuple s) (version_to_tuple "3.9") = false →
                tupleLt (version_to_tuple s) (version_to_tuple r) = false)
        ∧ ((∀ s ∈ ["2.7", "3.6", "3.7", "3.8"],
              tupleLt (version_to_tuple s) (version_to_tuple "3.9") = true) →
            ∀ s ∈ ["2.7", "3.6", "3.7", "3.8"],
              tupleLt (version_to_tuple r) (version_to_tuple s) = false)) :=
  ⟨by decide,
    (C1_locate_nearest_version_spec ["2.7", "3.6", "3.7", "3.8"] "3.9"
      (by decide) (by decide) (by decide)).1.1⟩
